import Mathlib

/-!
Shallow embedding of the CPU-affinity bitmask (`src/cpuset.rs`) and the
scheduling-policy accessor (`src/sched.rs`) of the rust-scheduler library.

Machine words (`u64`) are modelled as `Nat` values; all bit positions used by
the code are below 64, so `|||`/`^^^` with `1 <<< bit` never leave the 64-bit
range when the input word is in range.  A Rust operation that can panic
(out-of-bounds `Vec` indexing) is modelled as returning `Option`/`none`.
-/

namespace Scheduler

/-- `MASK_BITS` from cpuset.rs: the width of one mask word. -/
def MASK_BITS : Nat := 64

/-- `CpuSet { mask: Vec<Mask> }` — the bitmask buffer, a growable sequence of
64-bit words. -/
structure CpuSet where
  mask : List Nat
deriving DecidableEq, Repr

namespace CpuSet

/-- `CpuSet::new(num_cpus)`: `elements = (num_cpus + MASK_BITS - 1) / MASK_BITS`,
buffer is `vec![0; max(elements, 1)]`. -/
def new (num_cpus : Nat) : CpuSet :=
  ⟨List.replicate (max ((num_cpus + MASK_BITS - 1) / MASK_BITS) 1) 0⟩

/-- `CpuSet::len()`: the byte length, `(MASK_BITS / 8) * self.mask.len()`. -/
def len (s : CpuSet) : Nat :=
  (MASK_BITS / 8) * s.mask.length

/-- The `while elem > self.mask.len() { self.mask.push(0); }` loop of
`CpuSet::set`: pushes zero words while `elem` strictly exceeds the length,
so the final length is `max (mask.length) elem`. -/
def grow (mask : List Nat) (elem : Nat) : List Nat :=
  mask ++ List.replicate (elem - mask.length) 0

/-- `CpuSet::set(cpu)`: locate `elem = cpu / MASK_BITS`, `bit = cpu % MASK_BITS`,
run the grow loop, then `self.mask[elem] |= 1 << bit`.  The indexing panics
(modelled as `none`) when `elem` is still out of bounds after the loop. -/
def set (s : CpuSet) (cpu : Nat) : Option CpuSet :=
  let elem := cpu / MASK_BITS
  let bit := cpu % MASK_BITS
  let m := grow s.mask elem
  if elem < m.length then
    some ⟨m.set elem (m.getD elem 0 ||| (1 <<< bit))⟩
  else
    none

/-- `CpuSet::clear(cpu)`: if `elem < self.mask.len()` then
`self.mask[elem] ^= 1 << bit`, otherwise nothing happens. -/
def clear (s : CpuSet) (cpu : Nat) : CpuSet :=
  let elem := cpu / MASK_BITS
  let bit := cpu % MASK_BITS
  if elem < s.mask.length then
    ⟨s.mask.set elem (s.mask.getD elem 0 ^^^ (1 <<< bit))⟩
  else
    s

/-- `CpuSet::is_set(cpu)`: the source compares `elem > self.len()` — the BYTE
length — and otherwise indexes `self.mask[elem]`, which panics (modelled as
`none`) when `elem` is not below the word count. -/
def is_set (s : CpuSet) (cpu : Nat) : Option Bool :=
  let elem := cpu / MASK_BITS
  let bit := cpu % MASK_BITS
  if elem > s.len then
    some false
  else if elem < s.mask.length then
    some (s.mask.getD elem 0 &&& (1 <<< bit) != 0)
  else
    none

/-- `CpuSet::single(cpu)`: `new(cpu + 1)` followed by `set(cpu)`. -/
def single (cpu : Nat) : Option CpuSet :=
  (new (cpu + 1)).set cpu

/-- Byte `j` of the buffer, reading the backing words little-endian:
byte `j` lives in word `j / 8` at bit offset `8 * (j % 8)`. -/
def bufByte (mask : List Nat) (j : Nat) : Nat :=
  (mask.getD (j / 8) 0) >>> (8 * (j % 8)) &&& 255

/-- `ptr::copy` of `n` leading buffer bytes into a zero-initialised scalar:
the result accumulates byte `j` at weight `2 ^ (8 * j)`. -/
def copyBytes (mask : List Nat) : Nat → Nat
  | 0 => 0
  | n + 1 => copyBytes mask n + bufByte mask n * 2 ^ (8 * n)

/-- `CpuSet::as_u64()`: error when `self.len()` exceeds `size_of::<u64>() = 8`,
otherwise copy `self.len()` leading bytes into a zero `u64`. -/
def as_u64 (s : CpuSet) : Except Unit Nat :=
  let src_size := s.len
  let out_size := 8
  if src_size > out_size then
    .error ()
  else
    .ok (copyBytes s.mask src_size)

/-- `CpuSet::from_mask::<T>(mask)` for a scalar of `k ≤ 8` bytes (`u8`..`u64`,
the widths the library is used with): build `new(8 * k)` — a single word for
these widths — then `ptr::write` the scalar's `k` bytes over the start of the
buffer, i.e. replace the low `8 * k` bits of the first word by the value. -/
def from_mask (k : Nat) (v : Nat) : CpuSet :=
  let c := new (8 * k)
  match c.mask with
  | [] => c
  | w :: rest => ⟨(w / 2 ^ (8 * k) * 2 ^ (8 * k) + v % 2 ^ (8 * k)) :: rest⟩

end CpuSet

/-- The `Policy` enum of sched.rs. -/
inductive Policy
  | other
  | fifo
  | roundRobin
  | batch
  | idle
  | deadline
deriving DecidableEq, Repr

/-- Linux values of the scheduler-class constants used by sched.rs
(`SCHED_DEADLINE` is defined in the source itself as `6`). -/
def SCHED_OTHER : Int := 0

def SCHED_FIFO : Int := 1

def SCHED_RR : Int := 2

def SCHED_BATCH : Int := 3

def SCHED_IDLE : Int := 5

def SCHED_DEADLINE : Int := 6

/-- Outcome of `get_policy`: a recognised policy, the `-1` error sentinel, or
a `panic!` on any other value returned by the OS. -/
inductive GetPolicyResult
  | ok (p : Policy)
  | err
  | panicked (ret : Int)
deriving DecidableEq, Repr

/-- `get_policy`'s match on the value returned by `sched_getscheduler`. -/
def get_policy (ret : Int) : GetPolicyResult :=
  if ret = SCHED_OTHER then .ok .other
  else if ret = SCHED_FIFO then .ok .fifo
  else if ret = SCHED_RR then .ok .roundRobin
  else if ret = SCHED_BATCH then .ok .batch
  else if ret = SCHED_IDLE then .ok .idle
  else if ret = SCHED_DEADLINE then .ok .deadline
  else if ret = -1 then .err
  else .panicked ret

/-! ### Helper lemmas -/

theorem MASK_BITS_eq : MASK_BITS = 64 := rfl

theorem bne_and_one_shift (x b : Nat) : (x &&& (1 <<< b) != 0) = x.testBit b := by
  rw [Nat.one_shiftLeft, Nat.and_two_pow]
  cases h : x.testBit b <;> simp

theorem getD_set_self {l : List Nat} {e : Nat} (w : Nat) (h : e < l.length) :
    (l.set e w).getD e 0 = w := by
  simp [List.getElem?_set_self h]

theorem getD_set_ne {e j : Nat} (l : List Nat) (w : Nat) (h : e ≠ j) :
    (l.set e w).getD j 0 = l.getD j 0 := by
  simp [List.getElem?_set_ne h]

theorem grow_eq_of_le {mask : List Nat} {elem : Nat} (h : elem ≤ mask.length) :
    CpuSet.grow mask elem = mask := by
  simp [CpuSet.grow, Nat.sub_eq_zero_of_le h]

theorem length_grow (mask : List Nat) (elem : Nat) :
    (CpuSet.grow mask elem).length = max mask.length elem := by
  simp [CpuSet.grow]
  omega

theorem set_eq_of_lt {s : CpuSet} {cpu : Nat} (h : cpu / 64 < s.mask.length) :
    s.set cpu = some ⟨s.mask.set (cpu / 64)
      (s.mask.getD (cpu / 64) 0 ||| (1 <<< (cpu % 64)))⟩ := by
  simp only [CpuSet.set, MASK_BITS_eq, grow_eq_of_le (Nat.le_of_lt h)]
  rw [if_pos h]

theorem set_eq_none_of_ge {s : CpuSet} {cpu : Nat} (h : s.mask.length ≤ cpu / 64) :
    s.set cpu = none := by
  simp only [CpuSet.set, MASK_BITS_eq]
  rw [if_neg]
  rw [length_grow]
  omega

theorem clear_eq_of_lt {s : CpuSet} {cpu : Nat} (h : cpu / 64 < s.mask.length) :
    s.clear cpu = ⟨s.mask.set (cpu / 64)
      (s.mask.getD (cpu / 64) 0 ^^^ (1 <<< (cpu % 64)))⟩ := by
  simp only [CpuSet.clear, MASK_BITS_eq]
  rw [if_pos h]

theorem clear_eq_of_ge {s : CpuSet} {cpu : Nat} (h : s.mask.length ≤ cpu / 64) :
    s.clear cpu = s := by
  simp only [CpuSet.clear, MASK_BITS_eq]
  rw [if_neg (by omega)]

theorem len_eq (s : CpuSet) : s.len = 8 * s.mask.length := rfl

theorem is_set_eq_of_lt {s : CpuSet} {cpu : Nat} (h : cpu / 64 < s.mask.length) :
    s.is_set cpu = some ((s.mask.getD (cpu / 64) 0).testBit (cpu % 64)) := by
  have h1 : ¬ (cpu / 64 > s.len) := by
    rw [len_eq]
    omega
  simp only [CpuSet.is_set, MASK_BITS_eq]
  rw [if_neg h1, if_pos h, bne_and_one_shift]

theorem or_one_shift_testBit_ne {bi bj : Nat} (w : Nat) (h : bi ≠ bj) :
    (w ||| (1 <<< bi)).testBit bj = w.testBit bj := by
  simp [Nat.one_shiftLeft, Nat.testBit_or, Nat.testBit_two_pow_of_ne h]

theorem xor_one_shift_testBit_ne {bi bj : Nat} (w : Nat) (h : bi ≠ bj) :
    (w ^^^ (1 <<< bi)).testBit bj = w.testBit bj := by
  simp [Nat.one_shiftLeft, Nat.testBit_xor, Nat.testBit_two_pow_of_ne h]

theorem copyBytes_nil : ∀ n, CpuSet.copyBytes [] n = 0 := by
  intro n
  induction n with
  | zero => rfl
  | succ n ih => simp [CpuSet.copyBytes, ih, CpuSet.bufByte]

theorem bufByte_single {n : Nat} (w : Nat) (h : n < 8) :
    CpuSet.bufByte [w] n = w / 2 ^ (8 * n) % 256 := by
  have h0 : n / 8 = 0 := by omega
  have h1 : n % 8 = n := by omega
  have h255 : (255 : Nat) = 2 ^ 8 - 1 := rfl
  rw [CpuSet.bufByte, h0, h1, h255, Nat.and_pow_two_sub_one_eq_mod,
    Nat.shiftRight_eq_div_pow]
  norm_num

theorem copyBytes_single (w : Nat) :
    ∀ n, n ≤ 8 → CpuSet.copyBytes [w] n = w % 2 ^ (8 * n) := by
  intro n
  induction n with
  | zero => intro _; simp [CpuSet.copyBytes, Nat.mod_one]
  | succ n ih =>
    intro h
    rw [CpuSet.copyBytes, ih (by omega), bufByte_single w (by omega)]
    have hp : (2 : Nat) ^ (8 * (n + 1)) = 2 ^ (8 * n) * 2 ^ 8 := by ring
    have h256 : (2 : Nat) ^ 8 = 256 := by norm_num
    rw [hp, Nat.mod_mul, h256]
    ring

theorem as_u64_one_word (w : Nat) :
    (⟨[w]⟩ : CpuSet).as_u64 = .ok (w % 2 ^ 64) := by
  have hlen : (⟨[w]⟩ : CpuSet).len = 8 := rfl
  simp only [CpuSet.as_u64, hlen]
  rw [if_neg (by omega), copyBytes_single w 8 (by omega)]

theorem new_eq (n : Nat) :
    CpuSet.new n = ⟨List.replicate (max ((n + 63) / 64) 1) 0⟩ := rfl

theorem div64_ne_of_eq {i j : Nat} (hij : i ≠ j) (he : i / 64 = j / 64) :
    i % 64 ≠ j % 64 := by
  omega

/-! ### Claims -/

/-- C1: the claim says `set(i)` always grows the word sequence until word
`i / W` is a valid index — including when `i` lands exactly on a word-size
boundary, e.g. bit 64 in a one-word buffer — and then sets the bit without
panicking.  The code's grow loop uses `elem > self.mask.len()`, which stops
one word short, so `self.mask[elem]` panics (modelled as `none`) for every
index at or beyond the current capacity: both bit 64 and bit 200 on a
one-word buffer. -/
theorem C1_set_beyond_capacity_panics :
    (CpuSet.new 1).set 64 = none ∧ (CpuSet.new 1).set 200 = none := by
  constructor <;> rfl

/-- C2: the claim says `is_set` on a bit beyond capacity returns `false` and
never panics, for every index including index 64 (word index equal to the word
count) of a one-word set.  The bounds check in the code compares the word
index against `self.len()` — the BYTE length — so on the one-word set built
from the 8-bit mask `0b11111111`, `is_set(64)` indexes `mask[1]` and panics
(modelled as `none`), even though the documented probes of bit 9 and bit 10000
do return `false` and `clear(10000)` is a no-op. -/
theorem C2_is_set_gap_panics :
    (CpuSet.from_mask 1 255).is_set 64 = none ∧
    (CpuSet.from_mask 1 255).is_set 9 = some false ∧
    (CpuSet.from_mask 1 255).is_set 10000 = some false ∧
    (CpuSet.from_mask 1 255).clear 10000 = CpuSet.from_mask 1 255 := by
  refine ⟨rfl, rfl, rfl, ?_⟩
  decide

/-- C5: `new n` never fails and yields exactly `ceil (max n 1 / 64)` words
(minimum one word), every word zero, and a byte length of word count times 8,
hence at least 8 bytes even for `n = 0`. -/
theorem C5_new_sizing (n : Nat) :
    (CpuSet.new n).mask.length = (max n 1 + 63) / 64 ∧
    (CpuSet.new n).mask = List.replicate ((CpuSet.new n).mask.length) 0 ∧
    (CpuSet.new n).len = (CpuSet.new n).mask.length * 8 ∧
    8 ≤ (CpuSet.new n).len := by
  have hlen : (CpuSet.new n).mask.length = max ((n + 63) / 64) 1 := by
    rw [new_eq]
    simp
  refine ⟨by rw [hlen]; omega, by rw [new_eq]; simp, by rw [len_eq]; omega, ?_⟩
  rw [len_eq, hlen]
  omega

/-- C7: when word `i / 64` is within bounds, `clear i` XORs the word against
the single-bit mask `1 <<< (i % 64)`: a set bit becomes clear and an
already-clear bit is toggled on — `clear` is not idempotent. -/
theorem C7_clear_is_xor_toggle (s : CpuSet) (i : Nat) (b : Bool)
    (h : i / 64 < s.mask.length) (hb : s.is_set i = some b) :
    (s.clear i).is_set i = some (!b) := by
  rw [is_set_eq_of_lt h] at hb
  have hb2 : (s.mask.getD (i / 64) 0).testBit (i % 64) = b := Option.some.inj hb
  rw [clear_eq_of_lt h]
  have h2 : i / 64 < (s.mask.set (i / 64)
      (s.mask.getD (i / 64) 0 ^^^ (1 <<< (i % 64)))).length := by
    simpa using h
  rw [is_set_eq_of_lt h2]
  simp only [getD_set_self _ h, Nat.testBit_xor, Nat.one_shiftLeft,
    Nat.testBit_two_pow_self, hb2]
  cases b <;> rfl

/-- C7 witness: on a fresh one-word set, bit 3 is clear, and `clear 3`
toggles it on. -/
theorem C7_witness :
    (3 / 64 < (CpuSet.new 1).mask.length ∧ (CpuSet.new 1).is_set 3 = some false) ∧
    ((CpuSet.new 1).clear 3).is_set 3 = some true :=
  ⟨⟨by decide, rfl⟩, C7_clear_is_xor_toggle (CpuSet.new 1) 3 false (by decide) rfl⟩

/-- C8: the buffer never shrinks: whenever `set` returns (does not panic) the
word count has not decreased, and `clear` leaves the word count unchanged
(`is_set` and `as_u64` take the set by reference and return plain values, so
they cannot change it). -/
theorem C8_never_shrinks :
    (∀ (s : CpuSet) (i : Nat) (s2 : CpuSet), s.set i = some s2 →
      s.mask.length ≤ s2.mask.length) ∧
    (∀ (s : CpuSet) (i : Nat), (s.clear i).mask.length = s.mask.length) := by
  constructor
  · intro s i s2 hset
    by_cases h : i / 64 < s.mask.length
    · rw [set_eq_of_lt h] at hset
      rw [← Option.some.inj hset]
      simp
    · rw [set_eq_none_of_ge (by omega)] at hset
      exact absurd hset (by simp)
  · intro s i
    by_cases h : i / 64 < s.mask.length
    · rw [clear_eq_of_lt h]
      simp
    · rw [clear_eq_of_ge (by omega)]

/-- C8 witness: `set 3` on a one-word set succeeds and does not shrink it. -/
theorem C8_witness :
    ((CpuSet.new 1).set 3 = some ⟨[8]⟩) ∧
    (CpuSet.new 1).mask.length ≤ (⟨[8]⟩ : CpuSet).mask.length :=
  ⟨rfl, C8_never_shrinks.1 (CpuSet.new 1) 3 ⟨[8]⟩ rfl⟩

/-- A word of `new n`'s buffer reads as zero at every index. -/
theorem getD_new (n e : Nat) : (CpuSet.new n).mask.getD e 0 = 0 := by
  rw [new_eq]
  simp only [List.getD_eq_getElem?_getD, List.getElem?_replicate]
  split <;> rfl

/-- C3: `as_u64` fails exactly when the byte length exceeds 8 (in particular
for a buffer sized for 80 bits), and on success the result's leading
`byte_length` bytes equal the buffer's bytes with the remaining bytes zero. -/
theorem C3_as_u64_lossless (s : CpuSet) (v : Nat) :
    (s.as_u64 = .error () ↔ 8 < s.len) ∧
    (CpuSet.new 80).as_u64 = .error () ∧
    ((∀ w ∈ s.mask, w < 2 ^ 64) → s.as_u64 = .ok v →
      ∀ j, j < 8 → v / 2 ^ (8 * j) % 256 =
        if j < s.len then CpuSet.bufByte s.mask j else 0) := by
  obtain ⟨m⟩ := s
  refine ⟨?_, rfl, ?_⟩
  · by_cases h : 8 < (⟨m⟩ : CpuSet).len
    · simp [CpuSet.as_u64, h]
    · simp [CpuSet.as_u64, h]
  · intro hwf hok j hj
    match m, hwf, hok with
    | [], _, hok =>
      have hv : v = 0 := by
        have h0 : (⟨[]⟩ : CpuSet).as_u64 = .ok 0 := rfl
        rw [h0] at hok
        exact (Except.ok.inj hok).symm
      subst hv
      have hl : (⟨[]⟩ : CpuSet).len = 0 := rfl
      rw [hl]
      simp
    | [w], hwf, hok =>
      have hw : w < 2 ^ 64 := hwf w (by simp)
      have hv : v = w := by
        rw [as_u64_one_word, Nat.mod_eq_of_lt hw] at hok
        exact (Except.ok.inj hok).symm
      rw [hv]
      have hl : (⟨[w]⟩ : CpuSet).len = 8 := rfl
      rw [hl, if_pos hj, bufByte_single w hj]
    | w :: w2 :: rest, _, hok =>
      have herr : (⟨w :: w2 :: rest⟩ : CpuSet).as_u64 = .error () := by
        rw [CpuSet.as_u64]
        simp only [len_eq]
        rw [if_pos (by simp only [List.length_cons]; omega)]
      rw [herr] at hok
      exact absurd hok (by simp)

/-- C3 witness: the one-word set built from the 8-bit mask `0xff` converts to
`0xff`, and byte 0 of the result equals byte 0 of the buffer. -/
theorem C3_witness :
    ((∀ w ∈ (CpuSet.from_mask 1 255).mask, w < 2 ^ 64) ∧
      (CpuSet.from_mask 1 255).as_u64 = .ok 255 ∧ (0 : Nat) < 8) ∧
    255 / 2 ^ (8 * 0) % 256 =
      if 0 < (CpuSet.from_mask 1 255).len then
        CpuSet.bufByte (CpuSet.from_mask 1 255).mask 0 else 0 :=
  ⟨⟨by decide, rfl, by decide⟩,
    (C3_as_u64_lossless (CpuSet.from_mask 1 255) 255).2.2 (by decide) rfl 0
      (by decide)⟩

/-- C4: for scalar widths `k ∈ {1,2,4,8}` bytes and any value of that width,
`from_mask` then `as_u64` (a scalar of at least the same width) returns the
original value, and the buffer's leading `k` bytes are the value's bytes with
every remaining byte clear. -/
theorem C4_from_mask_round_trip (k v : Nat)
    (hk : k = 1 ∨ k = 2 ∨ k = 4 ∨ k = 8) (hv : v < 2 ^ (8 * k)) :
    (CpuSet.from_mask k v).as_u64 = .ok v ∧
    (∀ j, j < k → CpuSet.bufByte (CpuSet.from_mask k v).mask j
      = v / 2 ^ (8 * j) % 256) ∧
    (∀ j, k ≤ j → j < 8 → CpuSet.bufByte (CpuSet.from_mask k v).mask j = 0) := by
  have hs : CpuSet.from_mask k v = ⟨[v]⟩ := by
    rcases hk with h | h | h | h <;>
      (subst h; norm_num at hv; simp [CpuSet.from_mask, new_eq]; omega)
  have hk8 : 8 * k ≤ 64 := by omega
  have hv64 : v < 2 ^ 64 :=
    Nat.lt_of_lt_of_le hv (Nat.pow_le_pow_right (by norm_num) hk8)
  refine ⟨?_, ?_, ?_⟩
  · rw [hs, as_u64_one_word, Nat.mod_eq_of_lt hv64]
  · intro j hj
    rw [hs, bufByte_single v (by omega)]
  · intro j hkj hj8
    rw [hs, bufByte_single v hj8]
    have : v / 2 ^ (8 * j) = 0 :=
      Nat.div_eq_of_lt
        (Nat.lt_of_lt_of_le hv (Nat.pow_le_pow_right (by norm_num) (by omega)))
    rw [this]

/-- C4 witness: the 8-bit value `0xab` round-trips through `from_mask` and
`as_u64`. -/
theorem C4_witness :
    (((1 : Nat) = 1 ∨ (1 : Nat) = 2 ∨ (1 : Nat) = 4 ∨ (1 : Nat) = 8) ∧
      171 < 2 ^ (8 * 1)) ∧
    (CpuSet.from_mask 1 171).as_u64 = .ok 171 :=
  ⟨⟨by decide, by decide⟩,
    (C4_from_mask_round_trip 1 171 (by decide) (by decide)).1⟩

/-- C6: `single i` never fails, yields a buffer sized for `i + 1` bits
(`i / 64 + 1` words), in which `is_set j` is true exactly for `j = i` among
all `j` within capacity; and `single 3` converts to the 64-bit scalar
`1 <<< 3`. -/
theorem C6_single_exact_bit :
    (∀ i, ∃ s, CpuSet.single i = some s ∧
      s.mask.length = i / 64 + 1 ∧
      (∀ j, j < 64 * s.mask.length → s.is_set j = some (decide (j = i)))) ∧
    (CpuSet.single 3).map CpuSet.as_u64 = some (.ok (1 <<< 3)) := by
  constructor
  · intro i
    have hwords : (CpuSet.new (i + 1)).mask.length = i / 64 + 1 := by
      rw [new_eq]
      simp
      omega
    have hlt : i / 64 < (CpuSet.new (i + 1)).mask.length := by omega
    refine ⟨⟨(CpuSet.new (i + 1)).mask.set (i / 64)
        ((CpuSet.new (i + 1)).mask.getD (i / 64) 0 ||| (1 <<< (i % 64)))⟩,
      by rw [CpuSet.single]; exact set_eq_of_lt hlt, by simpa using hwords, ?_⟩
    intro j hj
    simp only [List.length_set] at hj
    have hjlt : j / 64 < (List.set (CpuSet.new (i + 1)).mask (i / 64)
        ((CpuSet.new (i + 1)).mask.getD (i / 64) 0 ||| (1 <<< (i % 64)))).length := by
      simp only [List.length_set]
      omega
    rw [is_set_eq_of_lt hjlt]
    simp only [Option.some.injEq]
    by_cases he : i / 64 = j / 64
    · rw [← he, getD_set_self _ hlt, getD_new, Nat.zero_or, Nat.one_shiftLeft,
        Nat.testBit_two_pow]
      simp only [decide_eq_decide]
      omega
    · rw [getD_set_ne _ _ he, getD_new, Nat.zero_testBit]
      have : j ≠ i := by omega
      simp [this]
  · rfl

/-- C6 witness: `single 65` produces the two-word buffer `[0, 2]`, whose
bit 64 (within capacity, distinct from 65) reads back clear. -/
theorem C6_witness :
    (64 < 64 * ((⟨[0, 2]⟩ : CpuSet).mask.length)) ∧
    (⟨[0, 2]⟩ : CpuSet).is_set 64 = some false := by
  refine ⟨by norm_num, ?_⟩
  obtain ⟨s, hs, hlen, hbits⟩ := C6_single_exact_bit.1 65
  have hs2 : s = ⟨[0, 2]⟩ := by
    have h65 : CpuSet.single 65 = some ⟨[0, 2]⟩ := rfl
    rw [h65] at hs
    exact (Option.some.inj hs).symm
  have hb := hbits 64 (by rw [hs2]; norm_num)
  rw [hs2] at hb
  simpa using hb

/-- C10: `set` and `clear` touch only the addressed bit: for distinct indices
`i ≠ j` whose words are both within bounds, `is_set j` is unchanged by
`set i` (which succeeds and keeps the word count) and by `clear i` (which
also keeps the word count). -/
theorem C10_frame (s : CpuSet) (i j : Nat) (hij : i ≠ j)
    (hi : i / 64 < s.mask.length) (hj : j / 64 < s.mask.length) :
    (∃ s2, s.set i = some s2 ∧ s2.is_set j = s.is_set j ∧
      s2.mask.length = s.mask.length) ∧
    ((s.clear i).is_set j = s.is_set j ∧
      (s.clear i).mask.length = s.mask.length) := by
  constructor
  · refine ⟨⟨s.mask.set (i / 64)
        (s.mask.getD (i / 64) 0 ||| (1 <<< (i % 64)))⟩,
      set_eq_of_lt hi, ?_, by simp⟩
    have hj2 : j / 64 < (s.mask.set (i / 64)
        (s.mask.getD (i / 64) 0 ||| (1 <<< (i % 64)))).length := by
      simpa using hj
    rw [is_set_eq_of_lt hj2, is_set_eq_of_lt hj]
    simp only [Option.some.injEq]
    by_cases he : i / 64 = j / 64
    · rw [← he, getD_set_self _ hi]
      exact or_one_shift_testBit_ne _ (div64_ne_of_eq hij he)
    · rw [getD_set_ne _ _ he]
  · rw [clear_eq_of_lt hi]
    have hj2 : j / 64 < (s.mask.set (i / 64)
        (s.mask.getD (i / 64) 0 ^^^ (1 <<< (i % 64)))).length := by
      simpa using hj
    refine ⟨?_, by simp⟩
    rw [is_set_eq_of_lt hj2, is_set_eq_of_lt hj]
    simp only [Option.some.injEq]
    by_cases he : i / 64 = j / 64
    · rw [← he, getD_set_self _ hi]
      exact xor_one_shift_testBit_ne _ (div64_ne_of_eq hij he)
    · rw [getD_set_ne _ _ he]

/-- C10 witness: on the one-word set `0xff`, clearing bit 0 leaves bit 1's
reading unchanged. -/
theorem C10_witness :
    ((0 : Nat) ≠ 1 ∧ (0 : Nat) / 64 < (CpuSet.from_mask 1 255).mask.length ∧
      (1 : Nat) / 64 < (CpuSet.from_mask 1 255).mask.length) ∧
    ((CpuSet.from_mask 1 255).clear 0).is_set 1 =
      (CpuSet.from_mask 1 255).is_set 1 :=
  ⟨⟨by decide, by decide, by decide⟩,
    (C10_frame (CpuSet.from_mask 1 255) 0 1 (by decide) (by decide)
      (by decide)).2.1⟩

/-- C9: `get_policy` maps each of the six recognised scheduler-class
constants (with `SCHED_DEADLINE = 6`) to `Ok` of the corresponding `Policy`
variant, maps `-1` to an error result, and panics on every other value. -/
theorem C9_get_policy_mapping :
    get_policy SCHED_OTHER = .ok .other ∧
    get_policy SCHED_FIFO = .ok .fifo ∧
    get_policy SCHED_RR = .ok .roundRobin ∧
    get_policy SCHED_BATCH = .ok .batch ∧
    get_policy SCHED_IDLE = .ok .idle ∧
    get_policy SCHED_DEADLINE = .ok .deadline ∧
    get_policy (-1) = .err ∧
    (∀ r : Int, r ≠ SCHED_OTHER → r ≠ SCHED_FIFO → r ≠ SCHED_RR →
      r ≠ SCHED_BATCH → r ≠ SCHED_IDLE → r ≠ SCHED_DEADLINE → r ≠ -1 →
      get_policy r = .panicked r) := by
  refine ⟨rfl, rfl, rfl, rfl, rfl, rfl, rfl, ?_⟩
  intro r h0 h1 h2 h3 h5 h6 hm1
  simp only [get_policy, h0, h1, h2, h3, h5, h6, hm1, if_false]

/-- C9 witness: the unrecognised value 4 makes `get_policy` panic. -/
theorem C9_witness : get_policy 4 = .panicked 4 :=
  C9_get_policy_mapping.2.2.2.2.2.2.2 4 (by decide) (by decide) (by decide)
    (by decide) (by decide) (by decide) (by decide)

end Scheduler
